import Mathlib

set_option maxRecDepth 3000

/-!
Verification of `src/cim_models/cim_qa.py` (CIM with a QA-style annealing
schedule).  The module has two entry points, `cim_qa` (sequential, records the
full trajectory) and `cim_qa_gpu` (terminal state only, fused update), plus the
helper `fused_update`.

Embedding conventions:
* real numbers are modelled by `ℚ` (exact arithmetic);
* 1-D numpy arrays are `List ℚ`, 2-D arrays are `List (List ℚ)`;
* numpy operations that can raise (shape mismatches, Python `//` and `%` by
  zero) return `Except String`; size-1 broadcasting is modelled where numpy
  performs it;
* `np.sqrt dt` is irrational in general, so its value is passed in as the
  model input `sq_dt`;
* `np.random.normal(loc, scale, n)` is modelled by an oracle stream
  `z : ℕ → ℚ` of standard-normal draws consumed row-major with a running
  counter: the sample at counter position `k` is `loc + scale * z k`.  The
  sequential backend consumes `N` fresh draws per step; the GPU backend
  precomputes the whole `(num_steps × N)` matrix from the same stream.
-/

abbrev QVec := List ℚ
abbrev QMat := List (List ℚ)

instance {ε α : Type} [DecidableEq ε] [DecidableEq α] : DecidableEq (Except ε α) := fun x y =>
  match x, y with
  | .ok a, .ok b => if h : a = b then .isTrue (by rw [h]) else .isFalse (by simp [h])
  | .error e, .error f => if h : e = f then .isTrue (by rw [h]) else .isFalse (by simp [h])
  | .ok _, .error _ => .isFalse (by simp)
  | .error _, .ok _ => .isFalse (by simp)

/-- Python `a // b` on nonnegative ints: `ZeroDivisionError` when `b = 0`. -/
def pydiv (a b : ℕ) : Except String ℕ :=
  if b = 0 then .error "ZeroDivisionError" else .ok (a / b)

/-- Python `a % b` on nonnegative ints: `ZeroDivisionError` when `b = 0`. -/
def pymod (a b : ℕ) : Except String ℕ :=
  if b = 0 then .error "ZeroDivisionError" else .ok (a % b)

/-- `num_steps = int(T / dt)`: for a nonnegative quotient (the interface
requires `dt > 0`, `T > 0`) Python truncation equals the floor. -/
def numSteps (T dt : ℚ) : ℕ := ((T / dt).floor).toNat

/-- Elementwise binary operation on two 1-D arrays with numpy size-1
broadcasting: equal lengths operate pointwise, a length-1 operand is
stretched, anything else raises. -/
def bcastOp (f : ℚ → ℚ → ℚ) (a b : QVec) : Except String QVec :=
  if a.length = b.length then .ok (List.zipWith f a b)
  else if a.length = 1 then .ok (b.map (fun t => f (a.headD 0) t))
  else if b.length = 1 then .ok (a.map (fun t => f t (b.headD 0)))
  else .error "operands could not be broadcast together"

/-- Scalar times 1-D array (elementwise, total). -/
def vecScale (c : ℚ) (v : QVec) : QVec := v.map (fun t => c * t)

/-- 1-D array times scalar (elementwise, total); used for `dx_dt * dt`. -/
def vecScaleR (v : QVec) (c : ℚ) : QVec := v.map (fun t => t * c)

/-- numpy `x**3` elementwise. -/
def vecCube (v : QVec) : QVec := v.map (fun t => t ^ 3)

/-- Scalar times 2-D array (elementwise, total). -/
def matScale (c : ℚ) (A : QMat) : QMat := A.map (vecScale c)

/-- Shape of a rectangular 2-D array. -/
def matDims (A : QMat) : ℕ × ℕ := (A.length, (A.headD []).length)

/-- Elementwise `+` on 2-D arrays with numpy broadcasting: equal shapes add
pointwise; a size-1 dimension is stretched; otherwise raises. -/
def matBAdd (A B : QMat) : Except String QMat :=
  if matDims A = matDims B then .ok (List.zipWith (List.zipWith (· + ·)) A B)
  else
    let r1 := A.length
    let c1 := (A.headD []).length
    let r2 := B.length
    let c2 := (B.headD []).length
    if (r1 = r2 ∨ r1 = 1 ∨ r2 = 1) ∧ (c1 = c2 ∨ c1 = 1 ∨ c2 = 1) then
      .ok ((List.range (max r1 r2)).map (fun i =>
        (List.range (max c1 c2)).map (fun j =>
          (A.getD (if r1 = 1 then 0 else i) []).getD (if c1 = 1 then 0 else j) 0
          + (B.getD (if r2 = 1 then 0 else i) []).getD (if c2 = 1 then 0 else j) 0)))
    else .error "operands could not be broadcast together"

/-- `np.dot(A, x)` for 2-D `A` and 1-D `x`: requires the row length of `A` to
equal `x.length` (no broadcasting in `dot`). -/
def npDot (A : QMat) (x : QVec) : Except String QVec :=
  if A.all (fun row => row.length = x.length) then
    .ok (A.map (fun row => (List.zipWith (· * ·) row x).sum))
  else .error "shapes not aligned"

/-- `Jb = np.ones((N, N)) - np.eye(N)`: all off-diagonal entries 1, diagonal
entries 0 (the fully connected blank Hamiltonian with no self-coupling). -/
def npJb (N : ℕ) : QMat :=
  (List.range N).map (fun i => (List.range N).map (fun j => if i = j then (0 : ℚ) else 1))

/-- numpy row assignment `states[k] = v` into a buffer whose rows have length
`N`: exact length copies, a length-1 value broadcast-fills the row, anything
else raises. -/
def setRow (states : List QVec) (k : ℕ) (v : QVec) (N : ℕ) : Except String (List QVec) :=
  if v.length = N then .ok (states.set k v)
  else if v.length = 1 then .ok (states.set k (List.replicate N (v.headD 0)))
  else .error "could not broadcast input array"

/-- `np.random.normal(loc, scale, n)` starting at stream position `start`:
sample `i` is `loc + scale * z (start + i)`. -/
def normalSample (z : ℕ → ℚ) (loc scale : ℚ) (start n : ℕ) : QVec :=
  (List.range n).map (fun i => loc + scale * z (start + i))

/-- The sequential backend's per-step noise,
`noise_level * np.sqrt(dt) * np.random.normal(-1, 1, N)`: step `s` consumes
the `N` fresh draws at stream positions `s*N .. s*N + N - 1`. -/
def seqNoise (noise_level sq_dt : ℚ) (z : ℕ → ℚ) (N step : ℕ) : QVec :=
  vecScale (noise_level * sq_dt) (normalSample z (-1) 1 (step * N) N)

/-- The GPU backend's precomputed noise buffer,
`noise_level * cp.sqrt(dt) * cp.random.normal(-1, 1, size=(num_steps, N))`,
filled row-major from the same stream. -/
def gpuNoise (noise_level sq_dt : ℚ) (z : ℕ → ℚ) (num_steps N : ℕ) : QMat :=
  matScale (noise_level * sq_dt)
    ((List.range num_steps).map (fun s => normalSample z (-1) 1 (s * N) N))

/-- All caller-supplied parameters of `cim_qa` / `cim_qa_gpu`, in the Python
order, plus the two model inputs `sq_dt` (the value of `np.sqrt dt`) and `z`
(the standard-normal draw stream). -/
structure CimArgs where
  x0 : QVec
  alpha : ℚ
  p : ℚ
  J : QMat
  noise_level : ℚ
  coupling_coeff : ℚ
  dt : ℚ
  T : ℚ
  N : ℕ
  M : ℕ
  sq_dt : ℚ
  z : ℕ → ℚ

/-- The schedule-boundary block at the top of the loop body (identical in
`cim_qa` and `cim_qa_gpu`):
`if step % interval == 0: m = step // interval; lam = m / M;
 J_t = Jp if m == M - 1 else (1 - lam) * Jb + lam * Jp`. -/
def scheduleStep (interval M : ℕ) (Jb Jp : QMat) (step : ℕ) (Jt : QMat) :
    Except String QMat := do
  let r ← pymod step interval
  if r = 0 then
    let m ← pydiv step interval
    let lam : ℚ := (m : ℚ) / (M : ℚ)
    if (m : ℤ) = (M : ℤ) - 1 then
      pure Jp
    else
      matBAdd (matScale (1 - lam) Jb) (matScale lam Jp)
  else
    pure Jt

/-- Loop state of the sequential backend: the state vector `x`, the active
matrix `J_t` and the trajectory buffer `states`. -/
structure LoopState where
  x : QVec
  Jt : QMat
  states : List QVec
deriving DecidableEq

/-- One iteration of the `cim_qa` loop body (lines 37-50 of the source):
schedule update, `I_inj = coupling_coeff * np.dot(J_t, x)`,
`dx_dt = (p-1)*x - alpha*x**3 + I_inj`,
`noise = noise_level*np.sqrt(dt)*np.random.normal(-1,1,N)`,
`x = x + dx_dt*dt + noise`, `states[step+1] = x`. -/
def cimStep (a : CimArgs) (interval : ℕ) (Jb : QMat) (step : ℕ) (st : LoopState) :
    Except String LoopState := do
  let Jt ← scheduleStep interval a.M Jb a.J step st.Jt
  let Iinj := vecScale a.coupling_coeff (← npDot Jt st.x)
  let dxdt ← bcastOp (· + ·)
    (← bcastOp (· - ·) (vecScale (a.p - 1) st.x) (vecScale a.alpha (vecCube st.x))) Iinj
  let noise := seqNoise a.noise_level a.sq_dt a.z a.N step
  let x ← bcastOp (· + ·) (← bcastOp (· + ·) st.x (vecScaleR dxdt a.dt)) noise
  let states ← setRow st.states (step + 1) x a.N
  pure ⟨x, Jt, states⟩

/-- The body of `cimStep` with every used parameter — in particular the
step's noise sample — passed explicitly; `cimStep` is definitionally
`cimStepWith` applied to its record's fields (`cimStep_eq_with`).  This
isolates the only place `noise_level`, `sq_dt` and `z` enter the loop body,
which the noise-independence lemmas exploit. -/
def cimStepWith (M : ℕ) (Jp : QMat) (p alpha coupling_coeff dt : ℚ) (N : ℕ)
    (noise : QVec) (interval : ℕ) (Jb : QMat) (step : ℕ) (st : LoopState) :
    Except String LoopState := do
  let Jt ← scheduleStep interval M Jb Jp step st.Jt
  let Iinj := vecScale coupling_coeff (← npDot Jt st.x)
  let dxdt ← bcastOp (· + ·)
    (← bcastOp (· - ·) (vecScale (p - 1) st.x) (vecScale alpha (vecCube st.x))) Iinj
  let x ← bcastOp (· + ·) (← bcastOp (· + ·) st.x (vecScaleR dxdt dt)) noise
  let states ← setRow st.states (step + 1) x N
  pure ⟨x, Jt, states⟩

/-- Run `k` iterations of a loop body `f` that may raise. -/
def iterLoop {σ : Type} (f : ℕ → σ → Except String σ) (init : σ) : ℕ → Except String σ
  | 0 => .ok init
  | k + 1 => (iterLoop f init k).bind (f k)

/-- Everything `cim_qa` does before its `for` loop (lines 26-35):
`num_steps = int(T/dt)`, allocate `states = np.zeros((num_steps+1, N))`,
`states[0] = x0`, build `Jb`, set `J_t = Jb`, `interval = num_steps // M`. -/
structure SeqSetup where
  states : List QVec
  Jb : QMat
  interval : ℕ
  num_steps : ℕ
deriving DecidableEq

def cim_qa_setup (a : CimArgs) : Except String SeqSetup := do
  let num_steps := numSteps a.T a.dt
  let states0 : List QVec := List.replicate (num_steps + 1) (List.replicate a.N (0 : ℚ))
  let states ← setRow states0 0 a.x0 a.N
  let Jb := npJb a.N
  let interval ← pydiv num_steps a.M
  pure ⟨states, Jb, interval, num_steps⟩

/-- Sequential loop state after `k` of the `num_steps` iterations of the
`cim_qa` loop. -/
def cim_qa_state (a : CimArgs) (k : ℕ) : Except String LoopState := do
  let cfg ← cim_qa_setup a
  iterLoop (cimStep a cfg.interval cfg.Jb) ⟨a.x0, cfg.Jb, cfg.states⟩ k

/-- `cim_qa(x0, alpha, p, J, noise_level, coupling_coeff, dt, T, N, M)`:
returns `(states, x)` on normal return, `.error` when a numpy operation or a
Python division raises. -/
def cim_qa (a : CimArgs) : Except String (List QVec × QVec) :=
  (cim_qa_state a (numSteps a.T a.dt)).map (fun st => (st.states, st.x))

/-- The coupling matrix active during integration step `s` of the `cim_qa`
run (the value of `J_t` while the loop body of step `s` executes). -/
def cim_qa_JtUsed (a : CimArgs) (s : ℕ) : Except String QMat :=
  (cim_qa_state a (s + 1)).map LoopState.Jt

/-- `@cp.fuse` kernel: `x = x + ((p - 1)*x - alpha*x**3 + I_inj)*dt + noise`. -/
def fused_update (x Iinj noise : QVec) (dt alpha p : ℚ) : Except String QVec := do
  bcastOp (· + ·)
    (← bcastOp (· + ·) x
      (vecScaleR
        (← bcastOp (· + ·)
          (← bcastOp (· - ·) (vecScale (p - 1) x) (vecScale alpha (vecCube x))) Iinj)
        dt))
    noise

/-- Loop state of the GPU backend: only `x` and `J_t` (no trajectory). -/
structure GpuState where
  x : QVec
  Jt : QMat
deriving DecidableEq

/-- Everything `cim_qa_gpu` does before its loop (lines 70-86): device
transfer of `x0` and `J` (identity in the model), `Jb`, `num_steps`,
`states = None`, `J_t = Jb`, `interval = num_steps // M`, and the precomputed
noise matrix. -/
structure GpuSetup where
  Jb : QMat
  interval : ℕ
  num_steps : ℕ
  noise : QMat
deriving DecidableEq

def cim_qa_gpu_setup (a : CimArgs) : Except String GpuSetup := do
  let Jb := npJb a.N
  let num_steps := numSteps a.T a.dt
  let interval ← pydiv num_steps a.M
  let noise := gpuNoise a.noise_level a.sq_dt a.z num_steps a.N
  pure ⟨Jb, interval, num_steps, noise⟩

/-- One iteration of the `cim_qa_gpu` loop body (lines 88-101): schedule
update, `I_inj = coupling_coeff * cp.dot(J_t, x)`,
`x = fused_update(x, I_inj, noise[step], dt, alpha, p)`. -/
def gpuStep (a : CimArgs) (interval : ℕ) (Jb : QMat) (noise : QMat) (step : ℕ)
    (st : GpuState) : Except String GpuState := do
  let Jt ← scheduleStep interval a.M Jb a.J step st.Jt
  let Iinj := vecScale a.coupling_coeff (← npDot Jt st.x)
  let x ← fused_update st.x Iinj (noise.getD step []) a.dt a.alpha a.p
  pure ⟨x, Jt⟩

/-- The body of `gpuStep` with every used parameter passed explicitly;
`gpuStep` is definitionally `gpuStepWith` applied to its record's fields
(`gpuStep_eq_with`).  The GPU loop body touches no random state: the noise
matrix is precomputed in the setup. -/
def gpuStepWith (M : ℕ) (Jp : QMat) (coupling_coeff dt alpha p : ℚ)
    (interval : ℕ) (Jb : QMat) (noise : QMat) (step : ℕ) (st : GpuState) :
    Except String GpuState := do
  let Jt ← scheduleStep interval M Jb Jp step st.Jt
  let Iinj := vecScale coupling_coeff (← npDot Jt st.x)
  let x ← fused_update st.x Iinj (noise.getD step []) dt alpha p
  pure ⟨x, Jt⟩

/-- GPU loop state after `k` iterations. -/
def cim_qa_gpu_state (a : CimArgs) (k : ℕ) : Except String GpuState := do
  let cfg ← cim_qa_gpu_setup a
  iterLoop (gpuStep a cfg.interval cfg.Jb cfg.noise) ⟨a.x0, cfg.Jb⟩ k

/-- `cim_qa_gpu(...)`: returns `(None, x)` on normal return. -/
def cim_qa_gpu (a : CimArgs) : Except String (Option (List QVec) × QVec) :=
  (cim_qa_gpu_state a (numSteps a.T a.dt)).map (fun st => (none, st.x))

/-! ### Pure reference layer (used to state and prove run invariants) -/

/-- `A` is a rectangular `N × N` matrix. -/
def isSquareN (N : ℕ) (A : QMat) : Prop :=
  A.length = N ∧ ∀ row ∈ A, row.length = N

instance (N : ℕ) (A : QMat) : Decidable (isSquareN N A) := by
  unfold isSquareN; infer_instance

/-- Pointwise sum of equal-shape matrices. -/
def matAdd (A B : QMat) : QMat := List.zipWith (List.zipWith (· + ·)) A B

/-- Pointwise operations on equal-length vectors. -/
def vAdd (a b : QVec) : QVec := List.zipWith (· + ·) a b

def vSub (a b : QVec) : QVec := List.zipWith (· - ·) a b

/-- Matrix-vector product for aligned shapes. -/
def matVec (A : QMat) (x : QVec) : QVec :=
  A.map (fun row => (List.zipWith (· * ·) row x).sum)

/-- The matrix the schedule block computes at a boundary step `s`:
`m = s // interval`, forced to `Jp` on `m == M - 1`, otherwise
`(1 - m/M) * Jb + (m/M) * Jp`. -/
def phaseMat (interval M : ℕ) (Jb Jp : QMat) (s : ℕ) : QMat :=
  if ((s / interval : ℕ) : ℤ) = (M : ℤ) - 1 then Jp
  else
    matAdd (matScale (1 - ((s / interval : ℕ) : ℚ) / (M : ℚ)) Jb)
      (matScale (((s / interval : ℕ) : ℚ) / (M : ℚ)) Jp)

/-- The value of `J_t` during step `s` (for `interval ≥ 1`): recomputed at
multiples of `interval`, otherwise carried over from the previous step. -/
def usedAt (interval M : ℕ) (Jb Jp : QMat) : ℕ → QMat
  | 0 => phaseMat interval M Jb Jp 0
  | s + 1 =>
    if (s + 1) % interval = 0 then phaseMat interval M Jb Jp (s + 1)
    else usedAt interval M Jb Jp s

/-- The value of `J_t` entering step `k` (before the boundary check). -/
def JtPrev (interval M : ℕ) (Jb Jp : QMat) : ℕ → QMat
  | 0 => Jb
  | k + 1 => usedAt interval M Jb Jp k

/-- `interval = num_steps // M` as computed by both backends. -/
def runInterval (a : CimArgs) : ℕ := numSteps a.T a.dt / a.M

/-- One Euler–Maruyama update exactly as both backends compute it:
`x + ((p-1)*x - alpha*x**3 + coupling_coeff*(Jt · x)) * dt + noise`. -/
def eulerStep (alpha p coupling_coeff dt : ℚ) (Jt : QMat) (x noise : QVec) : QVec :=
  vAdd
    (vAdd x
      (vecScaleR
        (vAdd (vSub (vecScale (p - 1) x) (vecScale alpha (vecCube x)))
          (vecScale coupling_coeff (matVec Jt x)))
        dt))
    noise

/-- Reference state vector after `k` integration steps of a valid run. -/
def xAfter (a : CimArgs) : ℕ → QVec
  | 0 => a.x0
  | k + 1 =>
    eulerStep a.alpha a.p a.coupling_coeff a.dt
      (usedAt (runInterval a) a.M (npJb a.N) a.J k) (xAfter a k)
      (seqNoise a.noise_level a.sq_dt a.z a.N k)

/-- Reference trajectory buffer after `k` integration steps of a valid run:
the preallocated zero buffer with rows `0..k` written. -/
def trajAfter (a : CimArgs) : ℕ → List QVec
  | 0 => (List.replicate (numSteps a.T a.dt + 1) (List.replicate a.N (0 : ℚ))).set 0 a.x0
  | k + 1 => (trajAfter a k).set (k + 1) (xAfter a (k + 1))

/-! ### Concrete runs used as counterexamples and witnesses

Fields in order: `x0, alpha, p, J, noise_level, coupling_coeff, dt, T, N, M,
sq_dt, z`. -/

/-- `N = 2`, `J = [[0,2],[2,0]]`, `dt = 1`, `T = 5`, `M = 3`, no noise:
`num_steps = 5`, `interval = 5 // 3 = 1`, and `5` is not a multiple of `3`. -/
def cexC1 : CimArgs := ⟨[0, 0], 1, 2, [[0, 2], [2, 0]], 0, 1, 1, 5, 2, 3, 1, fun _ => 0⟩

/-- `N = 2`, `J = [[0,2],[2,0]]`, `dt = 1`, `T = 7`, `M = 4`, no noise:
`num_steps = 7`, `interval = 7 // 4 = 1`. -/
def cexC2 : CimArgs := ⟨[0, 0], 1, 2, [[0, 2], [2, 0]], 0, 1, 1, 7, 2, 4, 1, fun _ => 0⟩

/-- `num_steps = 1` but `M = 2`, so `interval = 1 // 2 = 0`. -/
def cexC3 : CimArgs := ⟨[0], 1, 2, [[0]], 0, 1, 1, 1, 1, 2, 1, fun _ => 0⟩

/-- Mismatched dimensions that numpy broadcasting reconciles: `x0` has
length 1, `J` is `1 × 1`, but `N = 2` (with `M = 1`, `num_steps = 1`). -/
def cexC9 : CimArgs := ⟨[1/100], 1, 2, [[0]], 0, 1, 1, 1, 2, 1, 1, fun _ => 0⟩

/-- A valid run with `M` dividing `num_steps`: `num_steps = 4`, `M = 2`,
`interval = 2`. -/
def witC1 : CimArgs := ⟨[0, 0], 1, 2, [[0, 2], [2, 0]], 0, 1, 1, 4, 2, 2, 1, fun _ => 0⟩

/-- A valid run with `M` not dividing `num_steps`: `num_steps = 7`, `M = 2`,
`interval = 3`, so steps 1, 2, 4 and 5 are intra-phase (non-boundary) steps. -/
def witC2 : CimArgs := ⟨[0, 0], 1, 2, [[0, 2], [2, 0]], 0, 1, 1, 7, 2, 2, 1, fun _ => 0⟩

/-- `M = 0`: the very first division `num_steps // M` raises. -/
def witC3 : CimArgs := ⟨[0], 1, 2, [[0]], 0, 1, 1, 1, 1, 0, 1, fun _ => 0⟩

/-- The spec's boundary scenario: `N = 2`, `J = [[0,1],[1,0]]`, `alpha = 1`,
`p = 2`, `coupling_coeff = 1`, `dt = 1/100`, `T = 1`, `M = 10`,
`noise_level = 0`, `x0 = [1/100, -1/100]`; `sqrt dt = 1/10` exactly. -/
def witC4 : CimArgs :=
  ⟨[1/100, -1/100], 1, 2, [[0, 1], [1, 0]], 0, 1, 1/100, 1, 2, 10, 1/10, fun _ => 0⟩

/-- A valid noisy run (`noise_level = 1`, constant draw stream `1`). -/
def witC5 : CimArgs := ⟨[1/2], 1, 2, [[2]], 1, 1, 1, 2, 1, 1, 1, fun _ => 1⟩

/-- A tiny valid run: `N = 1`, `num_steps = 2`, `M = 1`. -/
def witC6 : CimArgs := ⟨[0], 1, 2, [[0]], 0, 1, 1, 2, 1, 1, 1, fun _ => 0⟩

/-- `x0` has length 3 while `N = 2`: not broadcastable. -/
def witC9 : CimArgs := ⟨[5, 6, 7], 1, 2, [[0, 1], [1, 0]], 0, 1, 1, 1, 2, 1, 1, fun _ => 0⟩

/-- `T < dt`: `num_steps = int((1/2)/1) = 0`, the loop body never runs. -/
def witC10 : CimArgs := ⟨[5], 1, 2, [[0]], 0, 1, 1, 1/2, 1, 1, 1, fun _ => 0⟩

/-! ### Basic lemmas about the embedded operations -/

theorem exc_ok_bind {α β : Type} (a : α) (f : α → Except String β) :
    (Except.ok a >>= f) = f a := rfl

theorem exc_error_bind {α β : Type} (e : String) (f : α → Except String β) :
    ((Except.error e : Except String α) >>= f) = Except.error e := rfl

theorem exc_map_ok {α β : Type} (f : α → β) (a : α) :
    (Except.ok a : Except String α).map f = .ok (f a) := rfl

theorem exc_map_error {α β : Type} (f : α → β) (e : String) :
    (Except.error e : Except String α).map f = .error e := rfl

theorem pydiv_ok {a b : ℕ} (h : b ≠ 0) : pydiv a b = .ok (a / b) := by
  simp [pydiv, h]

theorem pymod_ok {a b : ℕ} (h : b ≠ 0) : pymod a b = .ok (a % b) := by
  simp [pymod, h]

@[simp] theorem vecScale_length (c : ℚ) (v : QVec) : (vecScale c v).length = v.length := by
  simp [vecScale]

@[simp] theorem vecScaleR_length (v : QVec) (c : ℚ) : (vecScaleR v c).length = v.length := by
  simp [vecScaleR]

@[simp] theorem vecCube_length (v : QVec) : (vecCube v).length = v.length := by
  simp [vecCube]

@[simp] theorem matVec_length (A : QMat) (x : QVec) : (matVec A x).length = A.length := by
  simp [matVec]

@[simp] theorem normalSample_length (z : ℕ → ℚ) (loc scale : ℚ) (start n : ℕ) :
    (normalSample z loc scale start n).length = n := by
  simp [normalSample]

@[simp] theorem seqNoise_length (nl sq : ℚ) (z : ℕ → ℚ) (N s : ℕ) :
    (seqNoise nl sq z N s).length = N := by
  simp [seqNoise]

theorem vAdd_length {a b : QVec} (h : a.length = b.length) : (vAdd a b).length = a.length := by
  simp [vAdd, h]

theorem vSub_length {a b : QVec} (h : a.length = b.length) : (vSub a b).length = a.length := by
  simp [vSub, h]

theorem bcastOp_add_eq {a b : QVec} (h : a.length = b.length) :
    bcastOp (· + ·) a b = .ok (vAdd a b) := by
  simp [bcastOp, vAdd, h]

theorem bcastOp_sub_eq {a b : QVec} (h : a.length = b.length) :
    bcastOp (· - ·) a b = .ok (vSub a b) := by
  simp [bcastOp, vSub, h]

theorem setRow_ok {v : QVec} {N : ℕ} (states : List QVec) (k : ℕ) (h : v.length = N) :
    setRow states k v N = .ok (states.set k v) := by
  simp [setRow, h]

theorem mem_zipWith {α β γ : Type} {f : α → β → γ} :
    ∀ {l1 : List α} {l2 : List β} {c : γ}, c ∈ List.zipWith f l1 l2 →
      ∃ a b, a ∈ l1 ∧ b ∈ l2 ∧ c = f a b := by
  intro l1
  induction l1 with
  | nil => intro l2 c h; simp [List.zipWith] at h
  | cons a t ih =>
    intro l2 c h
    cases l2 with
    | nil => simp [List.zipWith] at h
    | cons b t2 =>
      simp only [List.zipWith, List.mem_cons] at h
      rcases h with h | h
      · exact ⟨a, b, by simp, by simp, h⟩
      · rcases ih h with ⟨a2, b2, ha, hb, hc⟩
        exact ⟨a2, b2, by simp [ha], by simp [hb], hc⟩

theorem matDims_of_square {N : ℕ} {A : QMat} (h : isSquareN N A) : matDims A = (N, N) := by
  rcases h with ⟨hlen, hrow⟩
  cases A with
  | nil =>
    simp only [List.length_nil] at hlen
    subst hlen
    simp [matDims]
  | cons r t =>
    simp [matDims, List.headD] at hlen ⊢
    exact ⟨hlen, hrow r (by simp)⟩

theorem matScale_square {N : ℕ} {A : QMat} (c : ℚ) (h : isSquareN N A) :
    isSquareN N (matScale c A) := by
  rcases h with ⟨hlen, hrow⟩
  constructor
  · simp [matScale, hlen]
  · intro row hmem
    simp only [matScale, List.mem_map] at hmem
    rcases hmem with ⟨r, hr, rfl⟩
    simp [hrow r hr]

theorem matAdd_square {N : ℕ} {A B : QMat} (hA : isSquareN N A) (hB : isSquareN N B) :
    isSquareN N (matAdd A B) := by
  constructor
  · simp [matAdd, hA.1, hB.1]
  · intro row hmem
    rcases mem_zipWith hmem with ⟨a, b, ha, hb, rfl⟩
    simp [hA.2 a ha, hB.2 b hb]

theorem matBAdd_eq {N : ℕ} {A B : QMat} (hA : isSquareN N A) (hB : isSquareN N B) :
    matBAdd A B = .ok (matAdd A B) := by
  simp [matBAdd, matDims_of_square hA, matDims_of_square hB, matAdd]

theorem npJb_square (N : ℕ) : isSquareN N (npJb N) := by
  constructor
  · simp [npJb]
  · intro row hmem
    simp only [npJb, List.mem_map] at hmem
    rcases hmem with ⟨i, hi, rfl⟩
    simp

theorem npDot_ok {N : ℕ} {A : QMat} {x : QVec} (hA : isSquareN N A) (hx : x.length = N) :
    npDot A x = .ok (matVec A x) := by
  have hall : A.all (fun row => row.length = x.length) = true := by
    rw [List.all_eq_true]
    intro row hrow
    simp [hA.2 row hrow, hx]
  simp [npDot, matVec, hall]

theorem phaseMat_square {N : ℕ} {Jb Jp : QMat} (interval M s : ℕ)
    (hJb : isSquareN N Jb) (hJp : isSquareN N Jp) :
    isSquareN N (phaseMat interval M Jb Jp s) := by
  unfold phaseMat
  split
  · exact hJp
  · exact matAdd_square (matScale_square _ hJb) (matScale_square _ hJp)

theorem usedAt_square {N : ℕ} {Jb Jp : QMat} (interval M : ℕ)
    (hJb : isSquareN N Jb) (hJp : isSquareN N Jp) :
    ∀ s, isSquareN N (usedAt interval M Jb Jp s) := by
  intro s
  induction s with
  | zero => exact phaseMat_square _ _ _ hJb hJp
  | succ s ih =>
    unfold usedAt
    split
    · exact phaseMat_square _ _ _ hJb hJp
    · exact ih

theorem JtPrev_square {N : ℕ} {Jb Jp : QMat} (interval M : ℕ)
    (hJb : isSquareN N Jb) (hJp : isSquareN N Jp) :
    ∀ k, isSquareN N (JtPrev interval M Jb Jp k) := by
  intro k
  cases k with
  | zero => exact hJb
  | succ k => exact usedAt_square _ _ hJb hJp k

theorem eulerStep_length {N : ℕ} {Jt : QMat} {x noise : QVec}
    (alpha p cc dt : ℚ) (hJt : isSquareN N Jt) (hx : x.length = N) (hn : noise.length = N) :
    (eulerStep alpha p cc dt Jt x noise).length = N := by
  unfold eulerStep vAdd vSub
  simp [List.length_zipWith, hx, hn, hJt.1]

theorem exc_pure {α : Type} (a : α) : (pure a : Except String α) = .ok a := rfl

theorem scheduleStep_ok {N : ℕ} {Jb Jp Jt : QMat} (interval M step : ℕ)
    (hiv : interval ≠ 0) (hJb : isSquareN N Jb) (hJp : isSquareN N Jp) :
    scheduleStep interval M Jb Jp step Jt =
      .ok (if step % interval = 0 then phaseMat interval M Jb Jp step else Jt) := by
  unfold scheduleStep
  simp only [pymod_ok hiv, pydiv_ok hiv, exc_ok_bind]
  by_cases h : step % interval = 0
  · rw [if_pos h, if_pos h]
    unfold phaseMat
    by_cases h2 : ((step / interval : ℕ) : ℤ) = (M : ℤ) - 1
    · rw [if_pos h2, if_pos h2]; rfl
    · rw [if_neg h2, if_neg h2]
      exact matBAdd_eq (matScale_square _ hJb) (matScale_square _ hJp)
  · rw [if_neg h, if_neg h]; rfl

theorem cimStep_ok_of (a : CimArgs) (iv : ℕ) (Jb J2 : QMat) (k : ℕ) (st : LoopState)
    (hsched : scheduleStep iv a.M Jb a.J k st.Jt = .ok J2)
    (hJ2 : isSquareN a.N J2) (hx : st.x.length = a.N) :
    cimStep a iv Jb k st =
      .ok ⟨eulerStep a.alpha a.p a.coupling_coeff a.dt J2 st.x
             (seqNoise a.noise_level a.sq_dt a.z a.N k),
           J2,
           st.states.set (k + 1)
             (eulerStep a.alpha a.p a.coupling_coeff a.dt J2 st.x
               (seqNoise a.noise_level a.sq_dt a.z a.N k))⟩ := by
  have l1 : (vecScale (a.p - 1) st.x).length = (vecScale a.alpha (vecCube st.x)).length := by
    simp
  have l2 : (vSub (vecScale (a.p - 1) st.x) (vecScale a.alpha (vecCube st.x))).length
      = (vecScale a.coupling_coeff (matVec J2 st.x)).length := by
    rw [vSub_length l1]
    simp [hx, hJ2.1]
  have l3 : st.x.length
      = (vecScaleR (vAdd (vSub (vecScale (a.p - 1) st.x) (vecScale a.alpha (vecCube st.x)))
          (vecScale a.coupling_coeff (matVec J2 st.x))) a.dt).length := by
    rw [vecScaleR_length, vAdd_length l2, vSub_length l1]
    simp
  have l4 : (vAdd st.x
      (vecScaleR (vAdd (vSub (vecScale (a.p - 1) st.x) (vecScale a.alpha (vecCube st.x)))
        (vecScale a.coupling_coeff (matVec J2 st.x))) a.dt)).length
      = (seqNoise a.noise_level a.sq_dt a.z a.N k).length := by
    rw [vAdd_length l3, hx]
    simp
  have l5 : (vAdd (vAdd st.x
      (vecScaleR (vAdd (vSub (vecScale (a.p - 1) st.x) (vecScale a.alpha (vecCube st.x)))
        (vecScale a.coupling_coeff (matVec J2 st.x))) a.dt))
      (seqNoise a.noise_level a.sq_dt a.z a.N k)).length = a.N := by
    rw [vAdd_length l4, vAdd_length l3, hx]
  unfold cimStep
  simp only [hsched, exc_ok_bind, npDot_ok hJ2 hx, bcastOp_sub_eq l1, bcastOp_add_eq l2,
    bcastOp_add_eq l3, bcastOp_add_eq l4, setRow_ok _ _ l5, exc_pure, eulerStep]

theorem xAfter_length (a : CimArgs) (hx : a.x0.length = a.N) (hJ : isSquareN a.N a.J) :
    ∀ k, (xAfter a k).length = a.N := by
  intro k
  induction k with
  | zero => exact hx
  | succ k ih =>
    unfold xAfter
    exact eulerStep_length _ _ _ _
      (usedAt_square _ _ (npJb_square a.N) hJ k) ih (by simp)

theorem JtPrev_sel (iv M : ℕ) (Jb Jp : QMat) (hiv : iv ≠ 0) (k : ℕ) :
    (if k % iv = 0 then phaseMat iv M Jb Jp k else JtPrev iv M Jb Jp k)
      = usedAt iv M Jb Jp k := by
  cases k with
  | zero => simp [Nat.zero_mod, usedAt, JtPrev]
  | succ k => simp [usedAt, JtPrev]

theorem cim_qa_setup_ok (a : CimArgs) (hx : a.x0.length = a.N) (hM : a.M ≠ 0) :
    cim_qa_setup a = .ok ⟨trajAfter a 0, npJb a.N, runInterval a, numSteps a.T a.dt⟩ := by
  unfold cim_qa_setup trajAfter runInterval
  simp only [setRow_ok _ _ hx, pydiv_ok hM, exc_ok_bind, exc_pure]

theorem cim_qa_state_ok (a : CimArgs) (hx : a.x0.length = a.N) (hJ : isSquareN a.N a.J)
    (hM : a.M ≠ 0) (hiv : runInterval a ≠ 0) :
    ∀ k, cim_qa_state a k =
      .ok ⟨xAfter a k, JtPrev (runInterval a) a.M (npJb a.N) a.J k, trajAfter a k⟩ := by
  have hstate : ∀ k, cim_qa_state a k =
      iterLoop (cimStep a (runInterval a) (npJb a.N))
        ⟨a.x0, npJb a.N, trajAfter a 0⟩ k := by
    intro k
    unfold cim_qa_state
    rw [cim_qa_setup_ok a hx hM, exc_ok_bind]
  intro k
  rw [hstate]
  induction k with
  | zero => rfl
  | succ k ih =>
    unfold iterLoop
    rw [ih]
    show cimStep a (runInterval a) (npJb a.N) k
      ⟨xAfter a k, JtPrev (runInterval a) a.M (npJb a.N) a.J k, trajAfter a k⟩ = _
    rw [cimStep_ok_of a (runInterval a) (npJb a.N)
      (usedAt (runInterval a) a.M (npJb a.N) a.J k) k _
      (by
        rw [scheduleStep_ok _ _ _ hiv (npJb_square a.N) hJ]
        show _ = Except.ok (usedAt (runInterval a) a.M (npJb a.N) a.J k)
        rw [← JtPrev_sel (runInterval a) a.M (npJb a.N) a.J hiv k])
      (usedAt_square _ _ (npJb_square a.N) hJ k)
      (xAfter_length a hx hJ k)]
    rfl

theorem gpuNoise_row (nl sq : ℚ) (z : ℕ → ℚ) (ns N k : ℕ) (h : k < ns) :
    (gpuNoise nl sq z ns N).getD k [] = seqNoise nl sq z N k := by
  unfold gpuNoise matScale seqNoise
  rw [List.getD_eq_getElem?_getD, List.getElem?_map, List.getElem?_map,
    List.getElem?_range h]
  rfl

theorem fused_update_ok {N : ℕ} {x Iinj noise : QVec} (dt alpha p : ℚ)
    (hx : x.length = N) (hI : Iinj.length = N) (hn : noise.length = N) :
    fused_update x Iinj noise dt alpha p =
      .ok (vAdd (vAdd x
        (vecScaleR (vAdd (vSub (vecScale (p - 1) x) (vecScale alpha (vecCube x))) Iinj) dt))
        noise) := by
  have l1 : (vecScale (p - 1) x).length = (vecScale alpha (vecCube x)).length := by simp
  have l2 : (vSub (vecScale (p - 1) x) (vecScale alpha (vecCube x))).length = Iinj.length := by
    rw [vSub_length l1]
    simp [hx, hI]
  have l3 : x.length
      = (vecScaleR (vAdd (vSub (vecScale (p - 1) x) (vecScale alpha (vecCube x))) Iinj)
          dt).length := by
    rw [vecScaleR_length, vAdd_length l2, vSub_length l1]
    simp
  have l4 : (vAdd x
      (vecScaleR (vAdd (vSub (vecScale (p - 1) x) (vecScale alpha (vecCube x))) Iinj)
        dt)).length = noise.length := by
    rw [vAdd_length l3, hx, hn]
  unfold fused_update
  simp only [bcastOp_sub_eq l1, bcastOp_add_eq l2, bcastOp_add_eq l3, bcastOp_add_eq l4,
    exc_ok_bind, exc_pure]

theorem gpuStep_ok_of (a : CimArgs) (iv : ℕ) (Jb J2 : QMat) (noise : QMat) (k : ℕ)
    (st : GpuState)
    (hsched : scheduleStep iv a.M Jb a.J k st.Jt = .ok J2)
    (hJ2 : isSquareN a.N J2) (hx : st.x.length = a.N)
    (hn : (noise.getD k []).length = a.N) :
    gpuStep a iv Jb noise k st =
      .ok ⟨eulerStep a.alpha a.p a.coupling_coeff a.dt J2 st.x (noise.getD k []), J2⟩ := by
  have hI : (vecScale a.coupling_coeff (matVec J2 st.x)).length = a.N := by
    simp [hJ2.1]
  unfold gpuStep
  simp only [hsched, exc_ok_bind, npDot_ok hJ2 hx,
    fused_update_ok a.dt a.alpha a.p hx hI hn, exc_pure, eulerStep]

theorem cim_qa_gpu_setup_ok (a : CimArgs) (hM : a.M ≠ 0) :
    cim_qa_gpu_setup a = .ok ⟨npJb a.N, runInterval a, numSteps a.T a.dt,
      gpuNoise a.noise_level a.sq_dt a.z (numSteps a.T a.dt) a.N⟩ := by
  unfold cim_qa_gpu_setup runInterval
  simp only [pydiv_ok hM, exc_ok_bind, exc_pure]

theorem cim_qa_gpu_state_ok (a : CimArgs) (hx : a.x0.length = a.N) (hJ : isSquareN a.N a.J)
    (hM : a.M ≠ 0) (hiv : runInterval a ≠ 0) :
    ∀ k, k ≤ numSteps a.T a.dt → cim_qa_gpu_state a k =
      .ok ⟨xAfter a k, JtPrev (runInterval a) a.M (npJb a.N) a.J k⟩ := by
  have hstate : ∀ k, cim_qa_gpu_state a k =
      iterLoop (gpuStep a (runInterval a) (npJb a.N)
        (gpuNoise a.noise_level a.sq_dt a.z (numSteps a.T a.dt) a.N))
        ⟨a.x0, npJb a.N⟩ k := by
    intro k
    unfold cim_qa_gpu_state
    rw [cim_qa_gpu_setup_ok a hM, exc_ok_bind]
  intro k
  induction k with
  | zero => intro _; rw [hstate]; rfl
  | succ k ih =>
    intro hk
    rw [hstate]
    unfold iterLoop
    rw [← hstate, ih (Nat.le_of_succ_le hk)]
    show gpuStep a (runInterval a) (npJb a.N) _ k
      ⟨xAfter a k, JtPrev (runInterval a) a.M (npJb a.N) a.J k⟩ = _
    rw [gpuStep_ok_of a (runInterval a) (npJb a.N)
      (usedAt (runInterval a) a.M (npJb a.N) a.J k) _ k _
      (by
        rw [scheduleStep_ok _ _ _ hiv (npJb_square a.N) hJ]
        show _ = Except.ok (usedAt (runInterval a) a.M (npJb a.N) a.J k)
        rw [← JtPrev_sel (runInterval a) a.M (npJb a.N) a.J hiv k])
      (usedAt_square _ _ (npJb_square a.N) hJ k)
      (xAfter_length a hx hJ k)
      (by rw [gpuNoise_row _ _ _ _ _ _ (Nat.lt_of_succ_le hk)]; simp)]
    rw [gpuNoise_row _ _ _ _ _ _ (Nat.lt_of_succ_le hk)]
    rfl

theorem trajAfter_length (a : CimArgs) : ∀ k, (trajAfter a k).length = numSteps a.T a.dt + 1 := by
  intro k
  induction k with
  | zero => simp [trajAfter]
  | succ k ih => simp [trajAfter, ih]

theorem trajAfter_get (a : CimArgs) :
    ∀ k i, i ≤ k → i ≤ numSteps a.T a.dt → (trajAfter a k)[i]? = some (xAfter a i) := by
  intro k
  induction k with
  | zero =>
    intro i hi hins
    have hi0 : i = 0 := Nat.le_zero.mp hi
    subst hi0
    unfold trajAfter
    rw [List.getElem?_set_self (by simp)]
    rfl
  | succ k ih =>
    intro i hi hins
    unfold trajAfter
    by_cases hik : i = k + 1
    · subst hik
      rw [List.getElem?_set_self (by rw [trajAfter_length]; omega)]
    · rw [List.getElem?_set_ne (fun h => hik h.symm)]
      exact ih i (by omega) hins

theorem usedAt_boundary (iv M : ℕ) (Jb Jp : QMat) {s : ℕ} (h : s % iv = 0) :
    usedAt iv M Jb Jp s = phaseMat iv M Jb Jp s := by
  cases s with
  | zero => rfl
  | succ s => simp [usedAt, h]

theorem usedAt_reuse (iv M : ℕ) (Jb Jp : QMat) {s : ℕ} (h : (s + 1) % iv ≠ 0) :
    usedAt iv M Jb Jp (s + 1) = usedAt iv M Jb Jp s := by
  simp [usedAt, h]

theorem usedAt_final (iv M : ℕ) (Jb Jp : QMat) (hiv : iv ≠ 0) (hM : M ≠ 0) :
    ∀ s, (M - 1) * iv ≤ s → s < M * iv → usedAt iv M Jb Jp s = Jp := by
  intro s hs
  induction s, hs using Nat.le_induction with
  | base =>
    intro _
    rw [usedAt_boundary _ _ _ _ (Nat.mul_mod_left _ _)]
    unfold phaseMat
    rw [Nat.mul_div_cancel _ (Nat.pos_of_ne_zero hiv)]
    rw [if_pos (by omega)]
  | succ s hbase ih =>
    intro hlt
    by_cases hb : (s + 1) % iv = 0
    · exfalso
      rcases Nat.dvd_of_mod_eq_zero hb with ⟨q, hq⟩
      have h1 : q < M := by
        have hx1 : iv * q < iv * M := by rw [← hq, Nat.mul_comm iv M]; exact hlt
        exact Nat.lt_of_mul_lt_mul_left hx1
      have h2 : M - 1 < q := by
        have hx2 : iv * (M - 1) < iv * q := by
          rw [← hq, Nat.mul_comm iv (M - 1)]
          omega
        exact Nat.lt_of_mul_lt_mul_left hx2
      omega
    · rw [usedAt_reuse _ _ _ _ hb]
      exact ih (by omega)

theorem countP_range_succ (pred : ℕ → Bool) (n : ℕ) :
    (List.range (n + 1)).countP pred
      = (List.range n).countP pred + (if pred n then 1 else 0) := by
  rw [List.range_succ, List.countP_append]
  simp [List.countP_cons]

theorem countP_range_multiples {iv : ℕ} (hiv : iv ≠ 0) :
    ∀ M, (List.range (M * iv)).countP (fun s => decide (s % iv = 0)) = M := by
  intro M
  induction M with
  | zero => simp
  | succ M ih =>
    have hstep : ∀ j, j ≤ iv →
        (List.range (M * iv + j)).countP (fun s => decide (s % iv = 0))
          = M + (if j = 0 then 0 else 1) := by
      intro j
      induction j with
      | zero => intro _; simpa using ih
      | succ j ihj =>
        intro hj
        rw [← Nat.add_assoc, countP_range_succ]
        rw [ihj (by omega)]
        have hmod : (M * iv + j) % iv = j := by
          rw [Nat.add_comm, Nat.add_mul_mod_self_right, Nat.mod_eq_of_lt (by omega)]
        by_cases hj0 : j = 0
        · subst hj0
          simp [hmod, hiv]
        · have hne : ¬ ((M * iv + j) % iv = 0) := by rw [hmod]; exact hj0
          simp [hne, hj0]
    have heq : (M + 1) * iv = M * iv + iv := by ring
    rw [heq, hstep iv (le_refl iv)]
    simp [hiv]

theorem vecScale_zero_mul (sq : ℚ) (v : QVec) :
    vecScale (0 * sq) v = List.replicate v.length 0 := by
  unfold vecScale
  have hf : (fun t => 0 * sq * t) = fun _ : ℚ => (0 : ℚ) := by
    funext t
    ring
  rw [hf, List.map_const']

theorem seqNoise_zero (sq : ℚ) (z : ℕ → ℚ) (N s : ℕ) :
    seqNoise 0 sq z N s = List.replicate N 0 := by
  unfold seqNoise
  rw [vecScale_zero_mul]
  simp

theorem gpuNoise_zero (sq : ℚ) (z : ℕ → ℚ) (ns N : ℕ) :
    gpuNoise 0 sq z ns N = List.replicate ns (List.replicate N 0) := by
  unfold gpuNoise matScale
  rw [List.map_map]
  have hf : (vecScale (0 * sq) ∘ fun s => normalSample z (-1) 1 (s * N) N)
      = fun _ : ℕ => List.replicate N (0 : ℚ) := by
    funext s
    show vecScale (0 * sq) (normalSample z (-1) 1 (s * N) N) = _
    rw [vecScale_zero_mul]
    simp
  rw [hf, List.map_const', List.length_range]

theorem iterLoop_congr {σ : Type} {f g : ℕ → σ → Except String σ}
    (h : ∀ s st, f s st = g s st) (init : σ) :
    ∀ k, iterLoop f init k = iterLoop g init k := by
  intro k
  induction k with
  | zero => rfl
  | succ k ih =>
    unfold iterLoop
    rw [ih]
    cases iterLoop g init k with
    | error e => rfl
    | ok st => exact h k st

theorem iterLoop_all_error {σ : Type} {f : ℕ → σ → Except String σ} {e : String}
    (h : ∀ s st, f s st = .error e) (init : σ) :
    ∀ k, 1 ≤ k → iterLoop f init k = .error e := by
  intro k
  induction k with
  | zero => omega
  | succ k ih =>
    intro _
    unfold iterLoop
    cases hk : k with
    | zero => exact h 0 init
    | succ k2 =>
      rw [← hk, ih (by omega)]
      rfl

theorem cimStep_interval_zero (a : CimArgs) (Jb : QMat) (s : ℕ) (st : LoopState) :
    cimStep a 0 Jb s st = .error "ZeroDivisionError" := rfl

theorem gpuStep_interval_zero (a : CimArgs) (Jb : QMat) (noise : QMat) (s : ℕ)
    (st : GpuState) :
    gpuStep a 0 Jb noise s st = .error "ZeroDivisionError" := rfl

theorem cim_qa_setup_M_zero (a : CimArgs) (hx : a.x0.length = a.N) (hM : a.M = 0) :
    cim_qa_setup a = .error "ZeroDivisionError" := by
  unfold cim_qa_setup
  simp only [setRow_ok _ _ hx, exc_ok_bind, pydiv, hM, if_pos, exc_error_bind]

theorem cim_qa_gpu_setup_M_zero (a : CimArgs) (hM : a.M = 0) :
    cim_qa_gpu_setup a = .error "ZeroDivisionError" := by
  unfold cim_qa_gpu_setup
  simp only [pydiv, hM, if_pos, exc_error_bind]

theorem cim_qa_M_zero (a : CimArgs) (hx : a.x0.length = a.N) (hM : a.M = 0) :
    cim_qa a = .error "ZeroDivisionError" := by
  unfold cim_qa cim_qa_state
  rw [cim_qa_setup_M_zero a hx hM, exc_error_bind, exc_map_error]

theorem cim_qa_gpu_M_zero (a : CimArgs) (hM : a.M = 0) :
    cim_qa_gpu a = .error "ZeroDivisionError" := by
  unfold cim_qa_gpu cim_qa_gpu_state
  rw [cim_qa_gpu_setup_M_zero a hM, exc_error_bind, exc_map_error]

theorem cim_qa_interval_zero (a : CimArgs) (hx : a.x0.length = a.N) (hM : a.M ≠ 0)
    (hiv : runInterval a = 0) (hns : 1 ≤ numSteps a.T a.dt) :
    cim_qa a = .error "ZeroDivisionError" := by
  unfold cim_qa cim_qa_state
  rw [cim_qa_setup_ok a hx hM, exc_ok_bind]
  rw [iterLoop_all_error (fun s st => by rw [hiv]; exact cimStep_interval_zero a _ s st)
    _ _ hns, exc_map_error]

theorem cim_qa_gpu_interval_zero (a : CimArgs) (hM : a.M ≠ 0)
    (hiv : runInterval a = 0) (hns : 1 ≤ numSteps a.T a.dt) :
    cim_qa_gpu a = .error "ZeroDivisionError" := by
  unfold cim_qa_gpu cim_qa_gpu_state
  rw [cim_qa_gpu_setup_ok a hM, exc_ok_bind]
  rw [iterLoop_all_error (fun s st => by rw [hiv]; exact gpuStep_interval_zero a _ _ s st)
    _ _ hns, exc_map_error]

theorem cimStep_eq_with (a : CimArgs) (iv : ℕ) (Jb : QMat) (k : ℕ) (st : LoopState) :
    cimStep a iv Jb k st
      = cimStepWith a.M a.J a.p a.alpha a.coupling_coeff a.dt a.N
          (seqNoise a.noise_level a.sq_dt a.z a.N k) iv Jb k st := rfl

theorem gpuStep_eq_with (a : CimArgs) (iv : ℕ) (Jb : QMat) (noise : QMat) (k : ℕ)
    (st : GpuState) :
    gpuStep a iv Jb noise k st
      = gpuStepWith a.M a.J a.coupling_coeff a.dt a.alpha a.p iv Jb noise k st := rfl

theorem cimStep_noise_free (x0 : QVec) (alpha p : ℚ) (J : QMat) (cc dt T : ℚ)
    (N M : ℕ) (sq : ℚ) (z1 z2 : ℕ → ℚ) (iv : ℕ) (Jb : QMat) (k : ℕ) (st : LoopState) :
    cimStep ⟨x0, alpha, p, J, 0, cc, dt, T, N, M, sq, z1⟩ iv Jb k st
      = cimStep ⟨x0, alpha, p, J, 0, cc, dt, T, N, M, sq, z2⟩ iv Jb k st := by
  rw [cimStep_eq_with, cimStep_eq_with, seqNoise_zero, seqNoise_zero]

theorem exc_bind_congr {α β : Type} (x : Except String α) (f g : α → Except String β)
    (h : ∀ v, f v = g v) : (x >>= f) = (x >>= g) := by
  cases x with
  | error e => rfl
  | ok v => exact h v

theorem cim_qa_state_noise_free (x0 : QVec) (alpha p : ℚ) (J : QMat) (cc dt T : ℚ)
    (N M : ℕ) (sq : ℚ) (z1 z2 : ℕ → ℚ) (k : ℕ) :
    cim_qa_state ⟨x0, alpha, p, J, 0, cc, dt, T, N, M, sq, z1⟩ k
      = cim_qa_state ⟨x0, alpha, p, J, 0, cc, dt, T, N, M, sq, z2⟩ k := by
  have hsetup : cim_qa_setup ⟨x0, alpha, p, J, 0, cc, dt, T, N, M, sq, z1⟩
      = cim_qa_setup ⟨x0, alpha, p, J, 0, cc, dt, T, N, M, sq, z2⟩ := rfl
  unfold cim_qa_state
  rw [hsetup]
  exact exc_bind_congr _ _ _ (fun cfg => iterLoop_congr
    (fun s st => cimStep_noise_free x0 alpha p J cc dt T N M sq z1 z2 cfg.interval cfg.Jb s st)
    _ k)

theorem cim_qa_gpu_setup_noise_free (x0 : QVec) (alpha p : ℚ) (J : QMat) (cc dt T : ℚ)
    (N M : ℕ) (sq : ℚ) (z1 z2 : ℕ → ℚ) :
    cim_qa_gpu_setup ⟨x0, alpha, p, J, 0, cc, dt, T, N, M, sq, z1⟩
      = cim_qa_gpu_setup ⟨x0, alpha, p, J, 0, cc, dt, T, N, M, sq, z2⟩ := by
  unfold cim_qa_gpu_setup
  simp only [gpuNoise_zero]

theorem cim_qa_gpu_state_noise_free (x0 : QVec) (alpha p : ℚ) (J : QMat) (cc dt T : ℚ)
    (N M : ℕ) (sq : ℚ) (z1 z2 : ℕ → ℚ) (k : ℕ) :
    cim_qa_gpu_state ⟨x0, alpha, p, J, 0, cc, dt, T, N, M, sq, z1⟩ k
      = cim_qa_gpu_state ⟨x0, alpha, p, J, 0, cc, dt, T, N, M, sq, z2⟩ k := by
  unfold cim_qa_gpu_state
  rw [cim_qa_gpu_setup_noise_free x0 alpha p J cc dt T N M sq z1 z2]
  exact exc_bind_congr _ _ _ (fun cfg => iterLoop_congr
    (fun s st => by rw [gpuStep_eq_with, gpuStep_eq_with]) _ k)

/-! ### Claim theorems -/

/-- C3 (amended): the claim says a zero `M` or a zero `interval = num_steps // M`
is rejected as a configuration error before the integration loop starts.  What
the code actually does (given an initial state of the contractual length):
if `M = 0` the division `num_steps // M` raises `ZeroDivisionError` before the
loop; if `M ≥ 1` but `interval = 0` with at least one step to run, the setup
completes and the `ZeroDivisionError` is raised by `step % interval` at the
first loop iteration — still before any state update, and in both cases the
call aborts with an error, so no partial results are returned (both entry
points). -/
theorem C3_amended (a : CimArgs) (hx : a.x0.length = a.N) :
    (a.M = 0 →
      cim_qa_setup a = .error "ZeroDivisionError"
      ∧ cim_qa a = .error "ZeroDivisionError"
      ∧ cim_qa_gpu a = .error "ZeroDivisionError")
    ∧ (a.M ≠ 0 → runInterval a = 0 → 1 ≤ numSteps a.T a.dt →
      (cim_qa_setup a).isOk = true
      ∧ cim_qa a = .error "ZeroDivisionError"
      ∧ cim_qa_gpu a = .error "ZeroDivisionError") := by
  constructor
  · intro hM
    exact ⟨cim_qa_setup_M_zero a hx hM, cim_qa_M_zero a hx hM, cim_qa_gpu_M_zero a hM⟩
  · intro hM hiv hns
    refine ⟨?_, cim_qa_interval_zero a hx hM hiv hns, cim_qa_gpu_interval_zero a hM hiv hns⟩
    rw [cim_qa_setup_ok a hx hM]
    rfl

/-- C3 (counterexample): with `num_steps = 1` and `M = 2` (so
`interval = 1 // 2 = 0`) the pre-loop part of `cim_qa` completes without
rejecting the configuration, and the `ZeroDivisionError` only surfaces from
inside the loop — refuting "rejected ... before the integration loop starts". -/
theorem C3_counterexample :
    (cim_qa_setup cexC3).isOk = true
    ∧ cim_qa cexC3 = .error "ZeroDivisionError"
    ∧ numSteps cexC3.T cexC3.dt = 1 ∧ cexC3.M = 2 := by
  refine ⟨?_, ?_, ?_, by decide⟩
  · with_unfolding_all decide
  · with_unfolding_all decide
  · with_unfolding_all decide

/-- C3 (witness): the amended claim applied to the concrete `M = 0` run. -/
theorem C3_witness :
    cim_qa_setup witC3 = .error "ZeroDivisionError"
    ∧ cim_qa witC3 = .error "ZeroDivisionError"
    ∧ cim_qa_gpu witC3 = .error "ZeroDivisionError" :=
  (C3_amended witC3 (by decide)).1 (by decide)

/-- C9 (amended): the claim says dimension mismatches are rejected before any
computation with no partial results.  What holds: an initial state whose
length is neither `N` nor 1 is rejected at the `states[0] = x0` assignment,
before the loop, and the call returns an error (no partial results); but
numpy size-1 broadcasting means not every mismatch is rejected
(see the counterexample, which runs to completion). -/
theorem C9_amended (a : CimArgs) (hL : a.x0.length ≠ a.N) (hL1 : a.x0.length ≠ 1) :
    cim_qa_setup a = .error "could not broadcast input array"
    ∧ cim_qa a = .error "could not broadcast input array" := by
  have hsetup : cim_qa_setup a = .error "could not broadcast input array" := by
    unfold cim_qa_setup
    simp only [setRow, hL, hL1, if_neg, if_false, exc_error_bind]
  refine ⟨hsetup, ?_⟩
  unfold cim_qa cim_qa_state
  rw [hsetup, exc_error_bind, exc_map_error]

/-- C9 (counterexample): `x0 = [1/100]` (length 1), `J = [[0]]` (1 × 1), but
`N = 2`: the initial-state length, the matrix dimensions and `N` all disagree,
yet with `M = 1` and `num_steps = 1` the run is not rejected at all — numpy
size-1 broadcasting stretches every mismatched operand and `cim_qa` returns a
fully populated result. -/
theorem C9_counterexample :
    (cim_qa cexC9).isOk = true
    ∧ (cim_qa cexC9).map (fun r => (r.1.length, r.2.length)) = .ok (2, 2)
    ∧ cexC9.x0.length = 1 ∧ cexC9.N = 2 ∧ cexC9.J.length = 1 := by
  refine ⟨?_, ?_, by decide, by decide, by decide⟩
  · with_unfolding_all decide
  · with_unfolding_all decide

/-- C9 (witness): the amended claim applied to a length-3 initial state with
`N = 2`. -/
theorem C9_witness :
    cim_qa_setup witC9 = .error "could not broadcast input array"
    ∧ cim_qa witC9 = .error "could not broadcast input array" :=
  C9_amended witC9 (by decide) (by decide)

/-- C10: when `floor(T/dt) = 0` (in particular for `T < dt`) and `M ≥ 1`,
`cim_qa` returns without raising: the trajectory is the single row `x0`, the
final state is `x0` unchanged, and the division-by-zero in the boundary check
is unreachable because the loop body never executes, even though
`interval = num_steps // M = 0`. -/
theorem C10_no_steps (a : CimArgs) (hx : a.x0.length = a.N) (hM : a.M ≠ 0)
    (hns : numSteps a.T a.dt = 0) :
    cim_qa a = .ok ([a.x0], a.x0) ∧ runInterval a = 0 := by
  constructor
  · unfold cim_qa
    rw [hns]
    unfold cim_qa_state
    rw [cim_qa_setup_ok a hx hM, exc_ok_bind]
    show Except.ok (trajAfter a 0, a.x0) = _
    unfold trajAfter
    rw [hns]
    rfl
  · unfold runInterval
    rw [hns]
    simp

/-- C10 (witness): the concrete run with `T = 1/2`, `dt = 1`. -/
theorem C10_witness : cim_qa witC10 = .ok ([[5]], [5]) ∧ runInterval witC10 = 0 :=
  C10_no_steps witC10 (by decide) (by decide) (by with_unfolding_all decide)

/-- C1 (counterexample): `N = 2`, `J = [[0,2],[2,0]]`, `dt = 1`, `T = 5`,
`M = 3`, so `num_steps = 5 ≥ M ≥ 1` and `interval = 1`.  At the last
integration step (step 4) the boundary recompute uses phase index
`m = 4 > M - 1`, producing the extrapolation `(1 - 4/3)*Jb + (4/3)*J =
[[0, 7/3], [7/3, 0]]`, which is not the target matrix: the matrix used at the
last step is neither `J` nor even a convex interpolation. -/
theorem C1_counterexample :
    cim_qa_JtUsed cexC1 4 = .ok [[0, 7/3], [7/3, 0]]
    ∧ ([[0, (7 : ℚ)/3], [7/3, 0]] : QMat) ≠ cexC1.J
    ∧ numSteps cexC1.T cexC1.dt = 5 ∧ cexC1.M = 3 := by
  refine ⟨?_, by with_unfolding_all decide, by with_unfolding_all decide, by decide⟩
  with_unfolding_all decide

/-- C1 (amended): if additionally `M` divides `num_steps`, then throughout
the final annealing phase — every step `s` with `(M-1)*interval ≤ s <
num_steps`, and in particular the last step — the active coupling matrix is
exactly (bit-for-bit, here: `ℚ`-exactly) the caller-supplied target `J`. -/
theorem C1_amended (a : CimArgs) (hx : a.x0.length = a.N) (hJ : isSquareN a.N a.J)
    (hM : a.M ≠ 0) (hMn : a.M ≤ numSteps a.T a.dt) (hdvd : a.M ∣ numSteps a.T a.dt) :
    (∀ s, (a.M - 1) * runInterval a ≤ s → s < numSteps a.T a.dt →
      cim_qa_JtUsed a s = .ok a.J)
    ∧ cim_qa_JtUsed a (numSteps a.T a.dt - 1) = .ok a.J := by
  have hpos : 0 < a.M := Nat.pos_of_ne_zero hM
  have hiv1 : 1 ≤ runInterval a := (Nat.one_le_div_iff hpos).2 hMn
  have hiv : runInterval a ≠ 0 := by omega
  have hns : a.M * runInterval a = numSteps a.T a.dt := Nat.mul_div_cancel' hdvd
  have hall : ∀ s, (a.M - 1) * runInterval a ≤ s → s < numSteps a.T a.dt →
      cim_qa_JtUsed a s = .ok a.J := by
    intro s h1 h2
    unfold cim_qa_JtUsed
    rw [cim_qa_state_ok a hx hJ hM hiv (s + 1), exc_map_ok]
    show Except.ok (usedAt (runInterval a) a.M (npJb a.N) a.J s) = _
    rw [usedAt_final (runInterval a) a.M _ _ hiv hM s h1 (by omega)]
  refine ⟨hall, hall _ ?_ ?_⟩
  · have hsub : (a.M - 1) * runInterval a = a.M * runInterval a - 1 * runInterval a :=
      Nat.sub_mul a.M 1 (runInterval a)
    rw [one_mul] at hsub
    omega
  · omega

/-- C1 (witness): the amended claim at the concrete run `num_steps = 4`,
`M = 2`, `interval = 2`: the matrix used at the last step (step 3) is exactly
the target `[[0,2],[2,0]]`. -/
theorem C1_witness : cim_qa_JtUsed witC1 3 = .ok [[0, 2], [2, 0]] :=
  (C1_amended witC1 (by decide) (by decide) (by decide)
    (by with_unfolding_all decide) ⟨2, by with_unfolding_all decide⟩).1 3
    (by with_unfolding_all decide) (by with_unfolding_all decide)

/-- C2 (counterexample): `N = 2`, `J = [[0,2],[2,0]]`, `dt = 1`, `T = 7`,
`M = 4`, so `num_steps = 7 ≥ M ≥ 1` and `interval = 1`.  Counting the steps
at which the run's active matrix differs from its previous value (with the
initial `J_t = Jb` before the loop): it changes at steps 1, 2, 3, 5 and 6 —
five times, which exceeds `M = 4`.  The claim's "changes value at most M
times" is false when `M` does not divide `num_steps`. -/
theorem C2_counterexample :
    ((List.range 7).countP (fun s =>
      decide (cim_qa_JtUsed cexC2 s
        ≠ if s = 0 then .ok (npJb 2) else cim_qa_JtUsed cexC2 (s - 1))) = 5)
    ∧ cexC2.M = 4 ∧ cexC2.M < 5 ∧ numSteps cexC2.T cexC2.dt = 7 := by
  refine ⟨?_, by decide, by decide, by with_unfolding_all decide⟩
  with_unfolding_all decide

/-- C2 (amended): for every run with `M ≥ 1` and `num_steps ≥ M` — dividing
or not — the active matrix is reused unchanged between boundary steps: at
every step `s+1` with `(s+1) % interval ≠ 0` the matrix used equals the one
used at step `s`.  The "changes at most M times" bound additionally holds
whenever `M` divides `num_steps`: the count of steps at which the run's
active matrix differs from its previous value (initial value `Jb`) is at
most `M`. -/
theorem C2_amended (a : CimArgs) (hx : a.x0.length = a.N) (hJ : isSquareN a.N a.J)
    (hM : a.M ≠ 0) (hMn : a.M ≤ numSteps a.T a.dt) :
    (∀ s, s + 1 < numSteps a.T a.dt → (s + 1) % runInterval a ≠ 0 →
        cim_qa_JtUsed a (s + 1) = cim_qa_JtUsed a s)
    ∧ (a.M ∣ numSteps a.T a.dt →
        (List.range (numSteps a.T a.dt)).countP (fun s =>
            decide (cim_qa_JtUsed a s
              ≠ if s = 0 then .ok (npJb a.N) else cim_qa_JtUsed a (s - 1)))
          ≤ a.M) := by
  have hpos : 0 < a.M := Nat.pos_of_ne_zero hM
  have hiv1 : 1 ≤ runInterval a := (Nat.one_le_div_iff hpos).2 hMn
  have hiv : runInterval a ≠ 0 := by omega
  have hused : ∀ s, cim_qa_JtUsed a s
      = .ok (usedAt (runInterval a) a.M (npJb a.N) a.J s) := by
    intro s
    unfold cim_qa_JtUsed
    rw [cim_qa_state_ok a hx hJ hM hiv (s + 1), exc_map_ok]
    rfl
  constructor
  · intro s h1 h2
    rw [hused, hused, usedAt_reuse _ _ _ _ h2]
  · intro hdvd
    have hns : a.M * runInterval a = numSteps a.T a.dt := Nat.mul_div_cancel' hdvd
    have himp : ∀ s ∈ List.range (numSteps a.T a.dt),
        decide (cim_qa_JtUsed a s
          ≠ if s = 0 then .ok (npJb a.N) else cim_qa_JtUsed a (s - 1)) = true
        → decide (s % runInterval a = 0) = true := by
      intro s _ hpred
      simp only [decide_eq_true_eq] at hpred ⊢
      by_contra hb
      apply hpred
      have hs0 : s ≠ 0 := by
        intro h0
        subst h0
        exact hb (Nat.zero_mod _)
      obtain ⟨s2, rfl⟩ : ∃ s2, s = s2 + 1 := ⟨s - 1, by omega⟩
      rw [if_neg (by omega : ¬ (s2 + 1 = 0)), Nat.add_sub_cancel, hused, hused,
        usedAt_reuse _ _ _ _ hb]
    calc (List.range (numSteps a.T a.dt)).countP (fun s =>
            decide (cim_qa_JtUsed a s
              ≠ if s = 0 then .ok (npJb a.N) else cim_qa_JtUsed a (s - 1)))
        ≤ (List.range (numSteps a.T a.dt)).countP (fun s => decide (s % runInterval a = 0)) :=
          List.countP_mono_left himp
      _ = a.M := by
          rw [← hns]
          exact countP_range_multiples hiv a.M

/-- C2 (witness): both conjuncts of the amended claim exercised concretely:
intra-phase reuse at the non-dividing run `witC2` (`num_steps = 7`, `M = 2`,
`interval = 3`: step 1 is not a boundary, so it reuses step 0's matrix), and
the at-most-`M` change bound at the dividing run `witC1` (`num_steps = 4`,
`M = 2`). -/
theorem C2_witness :
    (cim_qa_JtUsed witC2 1 = cim_qa_JtUsed witC2 0)
    ∧ ((List.range (numSteps witC1.T witC1.dt)).countP (fun s =>
        decide (cim_qa_JtUsed witC1 s
          ≠ if s = 0 then .ok (npJb witC1.N) else cim_qa_JtUsed witC1 (s - 1)))
      ≤ witC1.M) :=
  ⟨(C2_amended witC2 (by decide) (by decide) (by decide)
      (by with_unfolding_all decide)).1 0
      (by with_unfolding_all decide) (by with_unfolding_all decide),
   (C2_amended witC1 (by decide) (by decide) (by decide)
      (by with_unfolding_all decide)).2 ⟨2, by with_unfolding_all decide⟩⟩

/-- C4: for every integration step `k` of a valid run (`x0` of length `N`,
`J` an `N × N` matrix, `1 ≤ M ≤ num_steps`), if the state entering the step
is `x` and the active matrix during the step is `Jt`, the state after the
step is exactly `x + ((p - 1)*x - alpha*x^3 + coupling_coeff*(Jt · x))*dt + n`
with `n` that step's noise vector (`vecCube` is the elementwise cube and
`matVec` the matrix-vector product). -/
theorem C4_update_rule (a : CimArgs) (hx : a.x0.length = a.N) (hJ : isSquareN a.N a.J)
    (hM : a.M ≠ 0) (hMn : a.M ≤ numSteps a.T a.dt)
    (k : ℕ) (hk : k < numSteps a.T a.dt) (x : QVec) (Jt : QMat)
    (hxk : (cim_qa_state a k).map LoopState.x = .ok x)
    (hJt : cim_qa_JtUsed a k = .ok Jt) :
    (cim_qa_state a (k + 1)).map LoopState.x
      = .ok (vAdd (vAdd x
          (vecScaleR (vAdd (vSub (vecScale (a.p - 1) x) (vecScale a.alpha (vecCube x)))
            (vecScale a.coupling_coeff (matVec Jt x))) a.dt))
          (seqNoise a.noise_level a.sq_dt a.z a.N k)) := by
  have hpos : 0 < a.M := Nat.pos_of_ne_zero hM
  have hiv1 : 1 ≤ runInterval a := (Nat.one_le_div_iff hpos).2 hMn
  have hiv : runInterval a ≠ 0 := by omega
  rw [cim_qa_state_ok a hx hJ hM hiv k, exc_map_ok] at hxk
  rw [cim_qa_JtUsed, cim_qa_state_ok a hx hJ hM hiv (k + 1), exc_map_ok] at hJt
  have hx2 : x = xAfter a k := by
    have := hxk
    injection this with h2
    exact h2.symm
  have hJt2 : Jt = usedAt (runInterval a) a.M (npJb a.N) a.J k := by
    injection hJt with h4
    exact h4.symm
  rw [cim_qa_state_ok a hx hJ hM hiv (k + 1), exc_map_ok, hx2, hJt2]
  rfl

/-- C4 (witness): the spec's boundary scenario (`N = 2`, target
`[[0,1],[1,0]]`, `alpha = 1`, `p = 2`, `coupling_coeff = 1`, `dt = 1/100`,
`T = 1`, `M = 10`, zero noise, `x0 = [1/100, -1/100]`): the first step's
state equals `x0 + ((p-1)*x0 - x0^3 + (Jb · x0))*dt + n` with the blank
matrix `Jb` active (step 0 is phase 0, `lam = 0`) and the noise vector
exactly `[0, 0]`. -/
theorem C4_witness :
    ((cim_qa_state witC4 1).map LoopState.x
      = .ok (vAdd (vAdd [1/100, -1/100]
          (vecScaleR (vAdd (vSub (vecScale (2 - 1) [1/100, -1/100])
              (vecScale 1 (vecCube [1/100, -1/100])))
            (vecScale 1 (matVec (npJb 2) [1/100, -1/100]))) (1/100)))
          (seqNoise 0 (1/10) (fun _ => 0) 2 0)))
    ∧ cim_qa_JtUsed witC4 0 = .ok (npJb 2)
    ∧ seqNoise 0 (1/10) (fun _ => 0) 2 0 = [0, 0] := by
  have hJt : cim_qa_JtUsed witC4 0 = .ok (npJb 2) := by
    with_unfolding_all decide
  refine ⟨?_, hJt, by with_unfolding_all decide⟩
  exact C4_update_rule witC4 (by decide) (by decide) (by decide)
    (by with_unfolding_all decide) 0 (by with_unfolding_all decide)
    [1/100, -1/100] (npJb 2) (by with_unfolding_all decide) hJt

/-- C5: for all inputs with a length-`N` initial state and an `N × N` target
matrix, `cim_qa_gpu` and `cim_qa`, driven with identical parameters and the
same noise stream (so per-step noise vectors numerically identical), agree
exactly: the GPU entry point returns precisely the sequential entry point's
result with the trajectory slot replaced by `None` — in particular the final
state vectors are equal (and any error outcomes coincide as well). -/
theorem C5_backends_agree (a : CimArgs) (hx : a.x0.length = a.N)
    (hJ : isSquareN a.N a.J) :
    cim_qa_gpu a = (cim_qa a).map (fun r => ((none : Option (List QVec)), r.2)) := by
  by_cases hM : a.M = 0
  · rw [cim_qa_M_zero a hx hM, cim_qa_gpu_M_zero a hM, exc_map_error]
  · by_cases hiv : runInterval a = 0
    · by_cases hns : numSteps a.T a.dt = 0
      · unfold cim_qa cim_qa_gpu cim_qa_state cim_qa_gpu_state
        rw [hns, cim_qa_setup_ok a hx hM, cim_qa_gpu_setup_ok a hM, exc_ok_bind, exc_ok_bind]
        rfl
      · rw [cim_qa_interval_zero a hx hM hiv (by omega),
          cim_qa_gpu_interval_zero a hM hiv (by omega), exc_map_error]
    · unfold cim_qa cim_qa_gpu
      rw [cim_qa_state_ok a hx hJ hM hiv (numSteps a.T a.dt),
        cim_qa_gpu_state_ok a hx hJ hM hiv (numSteps a.T a.dt) (le_refl _)]
      rfl

/-- C5 (witness): the concrete noisy run `witC5` (`N = 1`, two steps,
`noise_level = 1`): GPU and sequential results agree. -/
theorem C5_witness :
    cim_qa_gpu witC5 = (cim_qa witC5).map (fun r => ((none : Option (List QVec)), r.2)) :=
  C5_backends_agree witC5 (by decide) (by decide)

/-- C6: for every valid run (`x0` of length `N`, `J` an `N × N` matrix,
`1 ≤ M ≤ num_steps`), `cim_qa` returns normally; the returned trajectory has
exactly `floor(T/dt) + 1` rows, row 0 is exactly the supplied initial state
(no noise applied at index 0), and row `k` is the state after `k` integration
steps (`xAfter`). -/
theorem C6_trajectory (a : CimArgs) (hx : a.x0.length = a.N) (hJ : isSquareN a.N a.J)
    (hM : a.M ≠ 0) (hMn : a.M ≤ numSteps a.T a.dt) :
    cim_qa a = .ok (trajAfter a (numSteps a.T a.dt), xAfter a (numSteps a.T a.dt))
    ∧ (trajAfter a (numSteps a.T a.dt)).length = numSteps a.T a.dt + 1
    ∧ (trajAfter a (numSteps a.T a.dt))[0]? = some a.x0
    ∧ (∀ k, k ≤ numSteps a.T a.dt →
        (trajAfter a (numSteps a.T a.dt))[k]? = some (xAfter a k)) := by
  have hpos : 0 < a.M := Nat.pos_of_ne_zero hM
  have hiv1 : 1 ≤ runInterval a := (Nat.one_le_div_iff hpos).2 hMn
  have hiv : runInterval a ≠ 0 := by omega
  refine ⟨?_, trajAfter_length a _, ?_,
    fun k hk => trajAfter_get a (numSteps a.T a.dt) k hk hk⟩
  · unfold cim_qa
    rw [cim_qa_state_ok a hx hJ hM hiv (numSteps a.T a.dt), exc_map_ok]
  · exact trajAfter_get a (numSteps a.T a.dt) 0 (Nat.zero_le _) (Nat.zero_le _)

/-- C6 (witness): the concrete run `witC6` (`num_steps = 2`): the trajectory
has 3 rows and row 0 is the initial state. -/
theorem C6_witness :
    cim_qa witC6 = .ok (trajAfter witC6 (numSteps witC6.T witC6.dt),
      xAfter witC6 (numSteps witC6.T witC6.dt))
    ∧ (trajAfter witC6 (numSteps witC6.T witC6.dt)).length = numSteps witC6.T witC6.dt + 1
    ∧ (trajAfter witC6 (numSteps witC6.T witC6.dt))[0]? = some [0] := by
  have h := C6_trajectory witC6 (by decide) (by decide) (by decide)
    (by with_unfolding_all decide)
  exact ⟨h.1, h.2.1, h.2.2.1⟩

/-- C7: with `noise_level = 0`, two runs of the same entry point with
identical parameters and initial state but arbitrary (different) draw
streams `z1`, `z2` return identical results — trajectory and final state for
`cim_qa`, final state for `cim_qa_gpu` — because the per-step noise term is
exactly the zero vector and nothing else in either entry point consumes
randomness. -/
theorem C7_zero_noise_determinism (x0 : QVec) (alpha p : ℚ) (J : QMat)
    (cc dt T : ℚ) (N M : ℕ) (sq : ℚ) (z1 z2 : ℕ → ℚ) :
    cim_qa ⟨x0, alpha, p, J, 0, cc, dt, T, N, M, sq, z1⟩
      = cim_qa ⟨x0, alpha, p, J, 0, cc, dt, T, N, M, sq, z2⟩
    ∧ cim_qa_gpu ⟨x0, alpha, p, J, 0, cc, dt, T, N, M, sq, z1⟩
      = cim_qa_gpu ⟨x0, alpha, p, J, 0, cc, dt, T, N, M, sq, z2⟩
    ∧ (∀ s, seqNoise 0 sq z1 N s = List.replicate N 0) := by
  refine ⟨?_, ?_, fun s => seqNoise_zero sq z1 N s⟩
  · unfold cim_qa
    rw [cim_qa_state_noise_free x0 alpha p J cc dt T N M sq z1 z2]
  · unfold cim_qa_gpu
    rw [cim_qa_gpu_state_noise_free x0 alpha p J cc dt T N M sq z1 z2]

/-- C8: the noise model in both backends.  For every step `s < num_steps` and
component `i < N`: the GPU backend's precomputed noise matrix row `s` is
exactly the sequential backend's step-`s` noise vector (same stream
positions, consumed one row per step); component `i` equals
`noise_level * sqrt(dt) * (-1 + 1 * z(s*N + i))` — a normal draw with
location -1 and unit scale, scaled by `noise_level * sqrt(dt)`; and
evaluating the step's noise at the standard-normal mean (`z = 0`) gives the
constant vector `-(noise_level * sqrt(dt))` per component: the noise carries
a bias of `-noise_level*sqrt(dt)` instead of being zero-mean. -/
theorem C8_noise_model (nl sq : ℚ) (z : ℕ → ℚ) (ns N s i : ℕ)
    (hs : s < ns) (hi : i < N) :
    (gpuNoise nl sq z ns N)[s]? = some (seqNoise nl sq z N s)
    ∧ (seqNoise nl sq z N s)[i]? = some (nl * sq * (-1 + 1 * z (s * N + i)))
    ∧ seqNoise nl sq (fun _ => 0) N s = List.replicate N (-(nl * sq)) := by
  refine ⟨?_, ?_, ?_⟩
  · unfold gpuNoise matScale seqNoise
    rw [List.getElem?_map, List.getElem?_map, List.getElem?_range hs]
    rfl
  · unfold seqNoise vecScale normalSample
    rw [List.getElem?_map, List.getElem?_map, List.getElem?_range hi]
    rfl
  · unfold seqNoise vecScale normalSample
    rw [List.map_map]
    have hf : ((fun t => nl * sq * t) ∘ fun j => -1 + 1 * (fun _ : ℕ => (0 : ℚ)) (s * N + j))
        = fun _ : ℕ => -(nl * sq) := by
      funext j
      show nl * sq * (-1 + 1 * 0) = -(nl * sq)
      ring
    rw [hf, List.map_const', List.length_range]

/-- C8 (witness): the noise model at `noise_level = 2`, `sqrt(dt) = 3`,
stream `z k = k`, step 1 of 2, component 0 of 1. -/
theorem C8_witness :
    (gpuNoise 2 3 (fun k => (k : ℚ)) 2 1)[1]? = some (seqNoise 2 3 (fun k => (k : ℚ)) 1 1)
    ∧ (seqNoise 2 3 (fun k => (k : ℚ)) 1 1)[0]?
        = some ((2 : ℚ) * 3 * (-1 + 1 * ((1 * 1 + 0 : ℕ) : ℚ)))
    ∧ seqNoise 2 3 (fun _ => 0) 1 1 = List.replicate 1 (-(2 * 3)) :=
  C8_noise_model 2 3 (fun k => (k : ℚ)) 2 1 1 0 (by omega) (by omega)
